import Mathlib

/- Shallow embedding of the StarryPy3k proxy core: the packet parser with its
decode cache (packet_parser.py), the plugin dispatch pipeline and the
dependency resolver (plugin_manager.py), the override bookkeeping
(plugin_manager.py with utilities.detect_overrides modelled from the spec),
and connection teardown (server.py). Pure-data ghost counters (decodeCalls,
parseCalls, socket close counts) record the side effects that the theorems
observe; they change exactly where the Python source performs the
corresponding effect. -/

/- ===== Packet parser (packet_parser.py) ===== -/

/- A decoded packet body. The concrete per-type layouts live in the external
data_parser module (outside the core); a body is modelled as a finite map
from field names to values, the empty list being the empty body that types
without a decoder receive. -/
abbrev Body := List (String × Nat)

/- A packet dict as produced by read_packet: type id, payload size, payload
bytes, the raw transmitted bytes, plus the lazily attached hash and parsed
fields (absent until the parser sets them). -/
structure Packet where
  ptype : Nat
  size : Nat
  data : List Nat
  original_data : List Nat
  phash : Option Nat
  parsed : Option Body
deriving Repr, DecidableEq

/- Observable side effects: a print to stdout (the bare prints in
PacketParser.parse), a logger call at warning level, and the
logger.exception call in PluginManager.do, which carries the action name. -/
inductive Effect where
  | printError
  | logWarning (msg : String)
  | logExc (action : String)
deriving Repr, DecidableEq

/- CachedPacket of packet_parser.py: a reference count and the parsed packet. -/
structure CachedPacket where
  count : Int
  packet : Packet
deriving Repr, DecidableEq

/- State of a PacketParser object: the _cache dict (association list keyed by
hash) and the configured min_cache_size, plus ghost counters for the number
of per-type decoder invocations and parse calls. -/
structure ParserState where
  cache : List (Nat × CachedPacket)
  minCacheSize : Nat
  decodeCalls : Nat
  parseCalls : Nat
deriving Repr, DecidableEq

/- The per-type decoder table (parse_map): None entries model types mapped to
None, a some entry is an external decoder that returns a body or raises. -/
abbrev DecodeTable := Nat → Option (List Nat → Except Unit Body)

/- Python hash() on the raw bytes: any fixed deterministic function of the
byte string; nothing in the claims depends on the particular values. -/
def pyhash (l : List Nat) : Nat :=
  l.foldl (fun a b => a * 31 + b + 1) 7

def cacheLookup (c : List (Nat × CachedPacket)) (h : Nat) : Option CachedPacket :=
  (c.find? (fun p => p.1 == h)).map Prod.snd

def cacheUpdate (c : List (Nat × CachedPacket)) (h : Nat) (e : CachedPacket) :
    List (Nat × CachedPacket) :=
  c.map (fun p => if p.1 == h then (h, e) else p)

def cacheInsert (c : List (Nat × CachedPacket)) (h : Nat) (e : CachedPacket) :
    List (Nat × CachedPacket) :=
  c ++ [(h, e)]

/- PacketParser._parse_packet: look the type up in parse_map; a None entry
yields the empty body, otherwise the decoder runs (counted) and may raise. -/
def parsePacket (table : DecodeTable) (st : ParserState) (pkt : Packet) :
    Except Unit Packet × ParserState :=
  match table pkt.ptype with
  | none => (Except.ok { pkt with parsed := some [] }, st)
  | some d =>
    match d pkt.data with
    | Except.ok b =>
      (Except.ok { pkt with parsed := some b },
       { st with decodeCalls := st.decodeCalls + 1 })
    | Except.error e =>
      (Except.error e, { st with decodeCalls := st.decodeCalls + 1 })

/- PacketParser.parse: for payloads of at least min_cache_size, set the hash,
then on a cache hit bump the refcount and reuse the cached parsed body, on a
miss parse and insert with count 1 (_parse_and_cache_packet); smaller
payloads are parsed directly and bypass the cache. Any exception is caught,
printed, and the packet is returned as is (the finally block). -/
def parse (table : DecodeTable) (st0 : ParserState) (pkt : Packet) :
    Packet × ParserState × List Effect :=
  let st := { st0 with parseCalls := st0.parseCalls + 1 }
  if st.minCacheSize ≤ pkt.size then
    let h := pyhash pkt.original_data
    let pkt1 := { pkt with phash := some h }
    match cacheLookup st.cache h with
    | some entry =>
      ({ pkt1 with parsed := entry.packet.parsed },
       { st with cache := cacheUpdate st.cache h { entry with count := entry.count + 1 } },
       [])
    | none =>
      match parsePacket table st pkt1 with
      | (Except.ok p, st1) =>
        (p, { st1 with cache := cacheInsert st1.cache h ⟨1, p⟩ }, [])
      | (Except.error _, st1) => (pkt1, st1, [Effect.printError])
  else
    match parsePacket table st pkt with
    | (Except.ok p, st1) => (p, st1, [])
    | (Except.error _, st1) => (pkt, st1, [Effect.printError])

/- One wake of PacketParser._reap: decrement the refcount of every cache
entry and drop the entries whose count is no longer positive. -/
def reapSweep (c : List (Nat × CachedPacket)) : List (Nat × CachedPacket) :=
  (c.map (fun p => (p.1, { p.2 with count := p.2.count - 1 }))).filter
    (fun p => decide (0 < p.2.count))

/- ===== Dispatch pipeline (PluginManager.do) ===== -/

/- Outcome of one hook invocation: the coroutine either returns a value
(True, False, or None for a bare return) or raises. -/
inductive HookOutcome where
  | ret (v : Option Bool)
  | exc

/- Python truthiness of a hook return value as tested by the source
(if not result): None and False are falsy, True is truthy. -/
def truthy : Option Bool → Bool
  | none => false
  | some b => b

/- The truthiness that the specification text assigns to a hook return
value: a hook that returns nothing is treated as true. Written from the
spec wording, for comparison with the code's truthy. -/
def truthySpec : Option Bool → Bool
  | none => true
  | some b => b

/- A plugin instance as seen by dispatch: its name and, for every action,
the hook reached by getattr(plugin, "on_" + action); plugins that do not
override an action inherit the BasePlugin default, which returns True. -/
structure Plugin where
  name : String
  hook : String → Packet → Nat → HookOutcome

/- The verdict the spec text predicts for a frame: the AND over all hooks
with a bare return counted as true. Written from the spec wording, for
comparison with doAction. -/
def specVerdict (ps : List Plugin) (action : String) (pkt : Packet) (conn : Nat) : Bool :=
  ps.all (fun p =>
    match p.hook action pkt conn with
    | HookOutcome.ret v => truthySpec v
    | HookOutcome.exc => true)

/- The truthiness the code assigns to one hook, with exceptions mapped to
true only so that the function is total; the exception case is never used
under the no-exception hypotheses of the theorems below. -/
def hookTruthy (p : Plugin) (action : String) (pkt : Packet) (conn : Nat) : Bool :=
  match p.hook action pkt conn with
  | HookOutcome.ret v => truthy v
  | HookOutcome.exc => true

/- State of a PluginManager relevant to dispatch: the _overrides set, the
_plugins registry in instantiation (= activation) order, and the owned
PacketParser. -/
structure PMState where
  overrides : List String
  plugins : List Plugin
  parser : ParserState

/- PluginManager.__init__: the overrides set starts empty and the plugin
registry starts empty; get_overrides is only scheduled later. -/
def pmInit (parser : ParserState) : PMState :=
  { overrides := [], plugins := [], parser := parser }

/- The for loop inside PluginManager.do: call each hook in order, clearing
send_flag on a falsy result; a raising hook propagates out of the loop
(result none), recording which plugins were reached. Returns the list of
invoked plugin names and, if no hook raised, the final send_flag. -/
def runHooks : List Plugin → String → Packet → Nat → Bool → List String × Option Bool
  | [], _, _, _, flag => ([], some flag)
  | p :: rest, action, pkt, conn, flag =>
    match p.hook action pkt conn with
    | HookOutcome.exc => ([p.name], none)
    | HookOutcome.ret v =>
      let r := runHooks rest action pkt conn (if truthy v then flag else false)
      (p.name :: r.1, r.2)

/- PluginManager.do (do is a Lean keyword, hence doAction): if the hook name
is overridden, parse the packet and run every hook, returning the send
flag; an exception anywhere inside is caught at this level, logged with the
action name, and the dispatch returns True. Otherwise return True at once.
Result: (verdict, new state, effects, invoked plugin names). -/
def doAction (table : DecodeTable) (pm : PMState) (conn : Nat) (action : String)
    (packet : Packet) : Bool × PMState × List Effect × List String :=
  if ("on_" ++ action) ∈ pm.overrides then
    let pr := parse table pm.parser packet
    let hr := runHooks pm.plugins action pr.1 conn true
    match hr.2 with
    | some flag => (flag, { pm with parser := pr.2.1 }, pr.2.2, hr.1)
    | none =>
      (true, { pm with parser := pr.2.1 }, pr.2.2 ++ [Effect.logExc action], hr.1)
  else
    (true, pm, [], [])


/- ===== Dispatch lemmas ===== -/

theorem runHooks_no_exc (action : String) (pkt : Packet) (conn : Nat)
    (ps : List Plugin) :
    ∀ (flag : Bool),
      (∀ p ∈ ps, p.hook action pkt conn ≠ HookOutcome.exc) →
      runHooks ps action pkt conn flag =
        (ps.map Plugin.name,
         some (flag && ps.all (fun p => hookTruthy p action pkt conn))) := by
  induction ps with
  | nil => intro flag _; simp [runHooks]
  | cons p rest ih =>
    intro flag h
    cases hh : p.hook action pkt conn with
    | exc => exact absurd hh (h p (List.mem_cons_self p rest))
    | ret v =>
      have h' := fun q hq => h q (List.mem_cons_of_mem p hq)
      cases hv : truthy v with
      | true =>
        have hrec := ih flag h'
        simp [runHooks, hh, hv, hrec, hookTruthy]
      | false =>
        have hrec := ih false h'
        simp [runHooks, hh, hv, hrec, hookTruthy]

theorem runHooks_exc_at (action : String) (pkt : Packet) (conn : Nat)
    (pre : List Plugin) (bad : Plugin) (post : List Plugin) :
    ∀ (flag : Bool),
      (∀ p ∈ pre, p.hook action pkt conn ≠ HookOutcome.exc) →
      bad.hook action pkt conn = HookOutcome.exc →
      runHooks (pre ++ bad :: post) action pkt conn flag =
        (pre.map Plugin.name ++ [bad.name], none) := by
  induction pre with
  | nil => intro flag _ hbad; simp [runHooks, hbad]
  | cons p rest ih =>
    intro flag h hbad
    cases hh : p.hook action pkt conn with
    | exc => exact absurd hh (h p (List.mem_cons_self p rest))
    | ret v =>
      have h' := fun q hq => h q (List.mem_cons_of_mem p hq)
      cases hv : truthy v with
      | true =>
        have hrec := ih flag h' hbad
        simp [runHooks, hh, hv, hrec]
      | false =>
        have hrec := ih false h' hbad
        simp [runHooks, hh, hv, hrec]

/- ===== Concrete fixtures for dispatch witnesses ===== -/

/- A decoder for the witnesses that always succeeds with a one-field body. -/
def dChat : List Nat → Except Unit Body :=
  fun _ => Except.ok [("message", 1)]

/- A decoder for the witnesses that always raises on its payload. -/
def dBad : List Nat → Except Unit Body :=
  fun _ => Except.error ()

/- A tiny decode table: type 17 (chat_sent) has a decoder, everything else is
unmapped, like the None entries of parse_map. -/
def tbl0 : DecodeTable :=
  fun t => if t = 17 then some dChat else none

/- A decode table whose type 17 decoder always raises on its payload. -/
def tblBad : DecodeTable :=
  fun t => if t = 17 then some dBad else none

def pkt0 : Packet :=
  { ptype := 17, size := 40, data := [1, 2, 3],
    original_data := [17, 40, 1, 2, 3], phash := none, parsed := none }

def ps0 : ParserState :=
  { cache := [], minCacheSize := 8, decodeCalls := 0, parseCalls := 0 }

def pluginP1 : Plugin :=
  { name := "P1", hook := fun _ _ _ => HookOutcome.ret (some false) }

def pluginP2 : Plugin :=
  { name := "P2", hook := fun _ _ _ => HookOutcome.ret (some true) }

def pluginNoneRet : Plugin :=
  { name := "PN", hook := fun _ _ _ => HookOutcome.ret none }

def pluginRaise : Plugin :=
  { name := "PX", hook := fun _ _ _ => HookOutcome.exc }

def pmC1 : PMState :=
  { overrides := ["on_chat_sent"], plugins := [pluginP1, pluginP2], parser := ps0 }

def pmC1none : PMState :=
  { overrides := ["on_chat_sent"], plugins := [pluginNoneRet], parser := ps0 }

def pmC2mix : PMState :=
  { overrides := ["on_chat_sent"],
    plugins := [pluginP1, pluginRaise, pluginP2], parser := ps0 }

def pmC3 : PMState :=
  { overrides := ["on_give_item"], plugins := [pluginP1], parser := ps0 }

def pmC10 : PMState :=
  { overrides := [], plugins := [pluginP1], parser := ps0 }

/- ===== C1 ===== -/

/-- C1 (amended): when the hook name of an inbound frame is in the overridden
set and no plugin hook raises on it, dispatch invokes the corresponding
hook of every loaded plugin, in activation order with no short-circuit, and
its verdict is the logical AND of the truthiness of all hook results, where
a hook that returns nothing (None) counts as false. -/
theorem C1_and_over_all_hooks (table : DecodeTable) (pm : PMState) (conn : Nat)
    (action : String) (packet : Packet)
    (hov : ("on_" ++ action) ∈ pm.overrides)
    (hne : ∀ p ∈ pm.plugins,
      p.hook action (parse table pm.parser packet).1 conn ≠ HookOutcome.exc) :
    (doAction table pm conn action packet).2.2.2 = pm.plugins.map Plugin.name ∧
    (doAction table pm conn action packet).1 =
      pm.plugins.all
        (fun p => hookTruthy p action (parse table pm.parser packet).1 conn) := by
  have hrun := runHooks_no_exc action (parse table pm.parser packet).1 conn
    pm.plugins true hne
  simp [doAction, if_pos hov, hrun]

/-- C1 witness: two plugins overriding chat_sent, P1 returning False and P2
returning True; both are invoked, in order, and the verdict is false. -/
theorem C1_and_over_all_hooks_witness :
    (("on_" ++ "chat_sent") ∈ pmC1.overrides ∧
      ∀ p ∈ pmC1.plugins,
        p.hook "chat_sent" (parse tbl0 pmC1.parser pkt0).1 0 ≠ HookOutcome.exc) ∧
    ((doAction tbl0 pmC1 0 "chat_sent" pkt0).2.2.2 = pmC1.plugins.map Plugin.name ∧
      (doAction tbl0 pmC1 0 "chat_sent" pkt0).1 =
        pmC1.plugins.all
          (fun p => hookTruthy p "chat_sent" (parse tbl0 pmC1.parser pkt0).1 0)) := by
  have hov : ("on_" ++ "chat_sent") ∈ pmC1.overrides := by decide
  have hne : ∀ p ∈ pmC1.plugins,
      p.hook "chat_sent" (parse tbl0 pmC1.parser pkt0).1 0 ≠ HookOutcome.exc := by
    intro p hp
    simp only [pmC1, List.mem_cons, List.not_mem_nil, or_false] at hp
    rcases hp with h | h <;> subst h <;> simp [pluginP1, pluginP2]
  exact ⟨⟨hov, hne⟩, C1_and_over_all_hooks tbl0 pmC1 0 "chat_sent" pkt0 hov hne⟩

/-- C1 counterexample: a single plugin whose chat_sent hook executes a bare
return (None). The claim counts that as true, predicting an aggregate
verdict of true, but the code verdict is false. -/
theorem C1_counterexample :
    (doAction tbl0 pmC1none 0 "chat_sent" pkt0).1 = false ∧
    specVerdict pmC1none.plugins "chat_sent" (parse tbl0 pmC1none.parser pkt0).1 0
      = true := by
  constructor <;> rfl

/- ===== C2 ===== -/

/-- C2 (amended): an exception raised by a plugin hook during dispatch is
caught at the whole-dispatch level and logged with the action name, and the
dispatch returns true (fail-open); however the hooks of the plugins after
the raising one are not invoked, and verdicts already returned by earlier
plugins are discarded. -/
theorem C2_exception_aborts_dispatch (table : DecodeTable) (pm : PMState)
    (conn : Nat) (action : String) (packet : Packet)
    (pre : List Plugin) (bad : Plugin) (post : List Plugin)
    (hov : ("on_" ++ action) ∈ pm.overrides)
    (hsplit : pm.plugins = pre ++ bad :: post)
    (hpre : ∀ p ∈ pre,
      p.hook action (parse table pm.parser packet).1 conn ≠ HookOutcome.exc)
    (hbad : bad.hook action (parse table pm.parser packet).1 conn = HookOutcome.exc) :
    (doAction table pm conn action packet).1 = true ∧
    (doAction table pm conn action packet).2.2.1 =
      (parse table pm.parser packet).2.2 ++ [Effect.logExc action] ∧
    (doAction table pm conn action packet).2.2.2 =
      pre.map Plugin.name ++ [bad.name] := by
  have hrun := runHooks_exc_at action (parse table pm.parser packet).1 conn
    pre bad post true hpre hbad
  simp [doAction, if_pos hov, hsplit, hrun]

/-- C2 witness: P1 vetoes, PX raises, P2 would approve; dispatch logs the
action, returns true, and the invocation list stops at PX. -/
theorem C2_exception_aborts_dispatch_witness :
    (("on_" ++ "chat_sent") ∈ pmC2mix.overrides ∧
      pmC2mix.plugins = [pluginP1] ++ pluginRaise :: [pluginP2] ∧
      (∀ p ∈ [pluginP1],
        p.hook "chat_sent" (parse tbl0 pmC2mix.parser pkt0).1 0 ≠ HookOutcome.exc) ∧
      pluginRaise.hook "chat_sent" (parse tbl0 pmC2mix.parser pkt0).1 0
        = HookOutcome.exc) ∧
    ((doAction tbl0 pmC2mix 0 "chat_sent" pkt0).1 = true ∧
      (doAction tbl0 pmC2mix 0 "chat_sent" pkt0).2.2.1 =
        (parse tbl0 pmC2mix.parser pkt0).2.2 ++ [Effect.logExc "chat_sent"] ∧
      (doAction tbl0 pmC2mix 0 "chat_sent" pkt0).2.2.2 =
        [pluginP1].map Plugin.name ++ [pluginRaise.name]) := by
  have hov : ("on_" ++ "chat_sent") ∈ pmC2mix.overrides := by decide
  have hsplit : pmC2mix.plugins = [pluginP1] ++ pluginRaise :: [pluginP2] := rfl
  have hpre : ∀ p ∈ [pluginP1],
      p.hook "chat_sent" (parse tbl0 pmC2mix.parser pkt0).1 0 ≠ HookOutcome.exc := by
    intro p hp
    simp only [List.mem_singleton] at hp
    subst hp
    simp [pluginP1]
  have hbad : pluginRaise.hook "chat_sent" (parse tbl0 pmC2mix.parser pkt0).1 0
      = HookOutcome.exc := rfl
  exact ⟨⟨hov, hsplit, hpre, hbad⟩,
    C2_exception_aborts_dispatch tbl0 pmC2mix 0 "chat_sent" pkt0
      [pluginP1] pluginRaise [pluginP2] hov hsplit hpre hbad⟩

/-- C2 counterexample: with P1 returning False, then PX raising, then P2, the
claim says the verdict stays false (the P1 veto is honored) and P2 is still
invoked; the code instead returns true and never invokes P2. -/
theorem C2_counterexample :
    (doAction tbl0 pmC2mix 0 "chat_sent" pkt0).1 = true ∧
    (doAction tbl0 pmC2mix 0 "chat_sent" pkt0).2.2.2 = ["P1", "PX"] := by
  constructor <;> rfl

/- ===== C3 ===== -/

/-- C3: for a frame whose hook name is not in the overridden set, dispatch
returns true immediately: the parser is not called (the whole manager
state, including the decode cache and the parse and decode counters, is
returned unchanged), no effect is produced, and no plugin hook is invoked. -/
theorem C3_skip_when_not_overridden (table : DecodeTable) (pm : PMState)
    (conn : Nat) (action : String) (packet : Packet)
    (h : ("on_" ++ action) ∉ pm.overrides) :
    doAction table pm conn action packet = (true, pm, [], []) := by
  simp [doAction, if_neg h]

/-- C3 witness: chat_sent is not overridden in a manager that overrides only
give_item; dispatch of a chat_sent frame is the identity on the manager. -/
theorem C3_skip_when_not_overridden_witness :
    (("on_" ++ "chat_sent") ∉ pmC3.overrides) ∧
    doAction tbl0 pmC3 0 "chat_sent" pkt0 = (true, pmC3, [], []) := by
  have h : ("on_" ++ "chat_sent") ∉ pmC3.overrides := by decide
  exact ⟨h, C3_skip_when_not_overridden tbl0 pmC3 0 "chat_sent" pkt0 h⟩

/- ===== C10 ===== -/

/-- C10: immediately after PluginManager construction the overrides set is
empty, and every dispatch performed while it is still empty (get_overrides
is only scheduled as a background task at startup) returns true without
parsing the frame, without touching the parser state, and without invoking
any plugin hook, even when loaded plugins do override that hook. -/
theorem C10_empty_overrides_pass_through (table : DecodeTable)
    (parser : ParserState) (pm : PMState) (conn : Nat) (action : String)
    (packet : Packet) (h : pm.overrides = []) :
    (pmInit parser).overrides = [] ∧
    doAction table pm conn action packet = (true, pm, [], []) := by
  refine ⟨rfl, ?_⟩
  have hnot : ("on_" ++ action) ∉ pm.overrides := by simp [h]
  simp [doAction, if_neg hnot]

/-- C10 witness: a manager whose plugin P1 vetoes chat_sent but whose
overrides set is still empty lets a chat_sent frame pass with verdict true,
unparsed, with no hook invoked. -/
theorem C10_empty_overrides_pass_through_witness :
    pmC10.overrides = [] ∧
    ((pmInit ps0).overrides = [] ∧
      doAction tbl0 pmC10 0 "chat_sent" pkt0 = (true, pmC10, [], [])) := by
  have h : pmC10.overrides = [] := rfl
  exact ⟨h, C10_empty_overrides_pass_through tbl0 ps0 pmC10 0 "chat_sent" pkt0 h⟩

/- ===== Cache lemmas ===== -/

theorem cacheLookup_nil (h : Nat) : cacheLookup [] h = none := rfl

theorem cacheLookup_cons (p : Nat × CachedPacket) (rest : List (Nat × CachedPacket))
    (h : Nat) :
    cacheLookup (p :: rest) h =
      if p.1 == h then some p.2 else cacheLookup rest h := by
  by_cases hp : (p.1 == h) = true
  · simp [cacheLookup, List.find?_cons, hp]
  · have hp' : (p.1 == h) = false := by simpa using hp
    simp [cacheLookup, List.find?_cons, hp']

theorem cacheUpdate_cons (p : Nat × CachedPacket) (rest : List (Nat × CachedPacket))
    (h : Nat) (e : CachedPacket) :
    cacheUpdate (p :: rest) h e =
      (if p.1 == h then (h, e) else p) :: cacheUpdate rest h e := rfl

theorem reapSweep_cons (p : Nat × CachedPacket) (rest : List (Nat × CachedPacket)) :
    reapSweep (p :: rest) =
      if 0 < p.2.count - 1
        then (p.1, { p.2 with count := p.2.count - 1 }) :: reapSweep rest
        else reapSweep rest := by
  by_cases hc : 0 < p.2.count - 1 <;> simp [reapSweep, hc]

theorem cacheLookup_eq_none_of_not_mem (c : List (Nat × CachedPacket)) (h : Nat)
    (hnm : h ∉ c.map Prod.fst) : cacheLookup c h = none := by
  induction c with
  | nil => rfl
  | cons p rest ih =>
    simp only [List.map_cons, List.mem_cons, not_or] at hnm
    have hp : (p.1 == h) = false := by
      simp [Ne.symm hnm.1]
    rw [cacheLookup_cons, hp]
    simp only [Bool.false_eq_true, if_false]
    exact ih hnm.2

theorem cacheLookup_insert_self (c : List (Nat × CachedPacket)) (h : Nat)
    (e : CachedPacket) (hnone : cacheLookup c h = none) :
    cacheLookup (cacheInsert c h e) h = some e := by
  induction c with
  | nil => simp [cacheLookup, cacheInsert]
  | cons p rest ih =>
    rw [cacheLookup_cons] at hnone
    by_cases hp : (p.1 == h) = true
    · rw [hp] at hnone; simp at hnone
    · have hp' : (p.1 == h) = false := by simpa using hp
      rw [hp'] at hnone
      simp only [Bool.false_eq_true, if_false] at hnone
      have : cacheInsert (p :: rest) h e = p :: cacheInsert rest h e := rfl
      rw [this, cacheLookup_cons, hp']
      simp only [Bool.false_eq_true, if_false]
      exact ih hnone

theorem cacheLookup_update_self (c : List (Nat × CachedPacket)) (h : Nat)
    (e e2 : CachedPacket) (hsome : cacheLookup c h = some e) :
    cacheLookup (cacheUpdate c h e2) h = some e2 := by
  induction c with
  | nil => simp [cacheLookup] at hsome
  | cons p rest ih =>
    rw [cacheLookup_cons] at hsome
    rw [cacheUpdate_cons]
    by_cases hp : (p.1 == h) = true
    · rw [hp]
      simp only [if_true]
      rw [cacheLookup_cons]
      simp
    · have hp' : (p.1 == h) = false := by simpa using hp
      rw [hp'] at hsome ⊢
      simp only [Bool.false_eq_true, if_false] at hsome ⊢
      rw [cacheLookup_cons, hp']
      simp only [Bool.false_eq_true, if_false]
      exact ih hsome

theorem reapSweep_keys_sublist (c : List (Nat × CachedPacket)) :
    List.Sublist ((reapSweep c).map Prod.fst) (c.map Prod.fst) := by
  have h1 : List.Sublist (reapSweep c)
      (c.map (fun p => (p.1, { p.2 with count := p.2.count - 1 }))) :=
    List.filter_sublist _
  have h2 := h1.map Prod.fst
  rw [List.map_map] at h2
  exact h2

theorem cacheLookup_reapSweep (c : List (Nat × CachedPacket)) (h : Nat)
    (hnd : (c.map Prod.fst).Nodup) :
    cacheLookup (reapSweep c) h =
      match cacheLookup c h with
      | none => none
      | some e => if 1 < e.count then some ⟨e.count - 1, e.packet⟩ else none := by
  induction c with
  | nil => rfl
  | cons p rest ih =>
    simp only [List.map_cons, List.nodup_cons] at hnd
    have ihr := ih hnd.2
    by_cases hp : p.1 = h
    · have hrestnone : cacheLookup rest h = none := by
        apply cacheLookup_eq_none_of_not_mem
        rw [← hp]
        exact hnd.1
      have hreapnone : cacheLookup (reapSweep rest) h = none := by
        rw [ihr, hrestnone]
      by_cases hc : 0 < p.2.count - 1
      · have h1lt : 1 < p.2.count := by omega
        rw [reapSweep_cons, if_pos hc, cacheLookup_cons, cacheLookup_cons]
        simp [hp, h1lt]
      · have h1lt : ¬ 1 < p.2.count := by omega
        rw [reapSweep_cons, if_neg hc, cacheLookup_cons]
        simp [hp, h1lt, hreapnone]
    · have hp' : (p.1 == h) = false := by simpa using hp
      by_cases hc : 0 < p.2.count - 1
      · rw [reapSweep_cons, if_pos hc, cacheLookup_cons, cacheLookup_cons]
        simp [hp', ihr]
      · rw [reapSweep_cons, if_neg hc, cacheLookup_cons]
        simp [hp', ihr]

/- ===== Parse step lemmas ===== -/

theorem parse_hit (table : DecodeTable) (st : ParserState) (pkt : Packet)
    (entry : CachedPacket)
    (hsize : st.minCacheSize ≤ pkt.size)
    (hhit : cacheLookup st.cache (pyhash pkt.original_data) = some entry) :
    parse table st pkt =
      ({ pkt with phash := some (pyhash pkt.original_data),
                  parsed := entry.packet.parsed },
       { st with
         cache :=
           cacheUpdate st.cache (pyhash pkt.original_data)
             ({ entry with count := entry.count + 1 }),
         parseCalls := st.parseCalls + 1 },
       []) := by
  unfold parse
  simp [hsize, hhit]

theorem parse_miss_ok (table : DecodeTable) (st : ParserState) (pkt : Packet)
    (d : List Nat → Except Unit Body) (b : Body)
    (hsize : st.minCacheSize ≤ pkt.size)
    (hmiss : cacheLookup st.cache (pyhash pkt.original_data) = none)
    (hdec : table pkt.ptype = some d)
    (hok : d pkt.data = Except.ok b) :
    parse table st pkt =
      ({ pkt with phash := some (pyhash pkt.original_data), parsed := some b },
       { st with
         cache := cacheInsert st.cache (pyhash pkt.original_data)
           ⟨1, { pkt with phash := some (pyhash pkt.original_data),
                          parsed := some b }⟩,
         decodeCalls := st.decodeCalls + 1,
         parseCalls := st.parseCalls + 1 },
       []) := by
  unfold parse parsePacket
  simp [hsize, hmiss, hdec, hok]

theorem parse_miss_err (table : DecodeTable) (st : ParserState) (pkt : Packet)
    (d : List Nat → Except Unit Body) (e : Unit)
    (hsize : st.minCacheSize ≤ pkt.size)
    (hmiss : cacheLookup st.cache (pyhash pkt.original_data) = none)
    (hdec : table pkt.ptype = some d)
    (herr : d pkt.data = Except.error e) :
    parse table st pkt =
      ({ pkt with phash := some (pyhash pkt.original_data) },
       { st with decodeCalls := st.decodeCalls + 1,
                 parseCalls := st.parseCalls + 1 },
       [Effect.printError]) := by
  unfold parse parsePacket
  simp [hsize, hmiss, hdec, herr]

theorem parse_small_cache_unchanged (table : DecodeTable) (st : ParserState)
    (pkt : Packet) (hsize : pkt.size < st.minCacheSize) :
    (parse table st pkt).2.1.cache = st.cache ∧
    (parse table st pkt).2.1.minCacheSize = st.minCacheSize := by
  have hnot : ¬ st.minCacheSize ≤ pkt.size := not_le.mpr hsize
  unfold parse parsePacket
  cases htbl : table pkt.ptype with
  | none => simp [hnot, htbl]
  | some d =>
    cases hres : d pkt.data with
    | ok b => simp [hnot, htbl, hres]
    | error e => simp [hnot, htbl, hres]

theorem parse_small_err (table : DecodeTable) (st : ParserState) (pkt : Packet)
    (d : List Nat → Except Unit Body) (e : Unit)
    (hsize : pkt.size < st.minCacheSize)
    (hdec : table pkt.ptype = some d)
    (herr : d pkt.data = Except.error e) :
    parse table st pkt =
      (pkt,
       { st with decodeCalls := st.decodeCalls + 1,
                 parseCalls := st.parseCalls + 1 },
       [Effect.printError]) := by
  have hnot : ¬ st.minCacheSize ≤ pkt.size := not_le.mpr hsize
  unfold parse parsePacket
  simp [hnot, hdec, herr]

/- ===== C5 ===== -/

/-- C5: a packet of size at least min_cache_size whose type decoder succeeds,
parsed twice on the same raw bytes before any reaper sweep, runs the
per-type decode exactly once and leaves the cache entry at refCount 2, the
second parse reusing the cached decoded body; every packet below
min_cache_size is decoded with the cache bypassed entirely; each reaper
sweep decrements every refCount by one and removes entries reaching zero,
so an unaccessed entry at refCount 2 is evicted after two sweeps. -/
theorem C5_decode_cache (table : DecodeTable) (st : ParserState) (pkt q : Packet)
    (d : List Nat → Except Unit Body) (b : Body)
    (hsize : st.minCacheSize ≤ pkt.size)
    (hmiss : cacheLookup st.cache (pyhash pkt.original_data) = none)
    (hdec : table pkt.ptype = some d)
    (hok : d pkt.data = Except.ok b)
    (hqdata : q.original_data = pkt.original_data)
    (hqsize : st.minCacheSize ≤ q.size) :
    ((parse table (parse table st pkt).2.1 q).2.1.decodeCalls = st.decodeCalls + 1 ∧
      (cacheLookup (parse table (parse table st pkt).2.1 q).2.1.cache (pyhash pkt.original_data)).map CachedPacket.count = some 2 ∧
      (parse table st pkt).1.parsed = some b ∧
      (parse table (parse table st pkt).2.1 q).1.parsed = some b) ∧
    (∀ (st2 : ParserState) (p2 : Packet), p2.size < st2.minCacheSize →
      (parse table st2 p2).2.1.cache = st2.cache) ∧
    (∀ (c : List (Nat × CachedPacket)) (h : Nat) (e : CachedPacket),
      (c.map Prod.fst).Nodup → cacheLookup c h = some e → e.count = 2 →
      cacheLookup (reapSweep c) h = some ⟨1, e.packet⟩ ∧
      cacheLookup (reapSweep (reapSweep c)) h = none) := by
  have h1 := parse_miss_ok table st pkt d b hsize hmiss hdec hok
  set P1 : Packet := { pkt with phash := some (pyhash pkt.original_data), parsed := some b } with hP1
  have hins : cacheLookup (parse table st pkt).2.1.cache (pyhash q.original_data) = some ⟨1, P1⟩ := by
    rw [h1, hqdata]
    exact cacheLookup_insert_self _ _ _ hmiss
  have hq2 : (parse table st pkt).2.1.minCacheSize ≤ q.size := by
    rw [h1]; exact hqsize
  have h2 := parse_hit table (parse table st pkt).2.1 q ⟨1, P1⟩ hq2 hins
  refine ⟨⟨?_, ?_, ?_, ?_⟩, ?_, ?_⟩
  · rw [h2]
    simp only
    rw [h1]
  · rw [h2]
    simp only
    rw [← hqdata]
    rw [cacheLookup_update_self _ _ ⟨1, P1⟩ _ hins]
    norm_num
  · rw [h1]
  · rw [h2]
  · intro st2 p2 hp2
    exact (parse_small_cache_unchanged table st2 p2 hp2).1
  · intro c h e hnd hlk hcnt
    have hs1 := cacheLookup_reapSweep c h hnd
    rw [hlk] at hs1
    have hs1b : cacheLookup (reapSweep c) h = if 1 < e.count then some ⟨e.count - 1, e.packet⟩ else none := hs1
    rw [hcnt] at hs1b
    have hone : cacheLookup (reapSweep c) h = some ⟨1, e.packet⟩ := by
      rw [hs1b]; norm_num
    refine ⟨hone, ?_⟩
    have hnd2 : ((reapSweep c).map Prod.fst).Nodup :=
      (reapSweep_keys_sublist c).nodup hnd
    have hs2 := cacheLookup_reapSweep (reapSweep c) h hnd2
    rw [hone] at hs2
    have hs2b : cacheLookup (reapSweep (reapSweep c)) h = if (1:Int) < 1 then some ⟨1 - 1, e.packet⟩ else none := hs2
    rw [hs2b]
    norm_num

/-- C5 witness: pkt0 (40-byte frame, threshold 8, decoder dChat) parsed twice
through tbl0 from an empty cache: one decode, refCount 2, and the sweep and
small-packet clauses instantiated. -/
theorem C5_decode_cache_witness :
    (ps0.minCacheSize ≤ pkt0.size ∧
      cacheLookup ps0.cache (pyhash pkt0.original_data) = none ∧
      tbl0 pkt0.ptype = some dChat ∧
      dChat pkt0.data = Except.ok [("message", 1)]) ∧
    (((parse tbl0 (parse tbl0 ps0 pkt0).2.1 pkt0).2.1.decodeCalls = ps0.decodeCalls + 1 ∧
      (cacheLookup (parse tbl0 (parse tbl0 ps0 pkt0).2.1 pkt0).2.1.cache (pyhash pkt0.original_data)).map CachedPacket.count = some 2 ∧
      (parse tbl0 ps0 pkt0).1.parsed = some [("message", 1)] ∧
      (parse tbl0 (parse tbl0 ps0 pkt0).2.1 pkt0).1.parsed = some [("message", 1)]) ∧
    (∀ (st2 : ParserState) (p2 : Packet), p2.size < st2.minCacheSize →
      (parse tbl0 st2 p2).2.1.cache = st2.cache) ∧
    (∀ (c : List (Nat × CachedPacket)) (h : Nat) (e : CachedPacket),
      (c.map Prod.fst).Nodup → cacheLookup c h = some e → e.count = 2 →
      cacheLookup (reapSweep c) h = some ⟨1, e.packet⟩ ∧
      cacheLookup (reapSweep (reapSweep c)) h = none)) :=
  ⟨⟨by decide, rfl, rfl, rfl⟩,
    C5_decode_cache tbl0 ps0 pkt0 pkt0 dChat [("message", 1)] (by decide) rfl rfl rfl rfl (by decide)⟩

/- ===== C9 ===== -/

/-- C9 (amended): when a type-specific decoder raises on a malformed payload,
parsing is non-fatal: parse still returns the packet, with its type id and
raw bytes intact and the cache unchanged, so the frame is passed on; but
the decoded body is left unset (the parsed field stays as it was; no empty
body is attached) and the failure is printed to stdout rather than logged
at warning level. -/
theorem C9_decoder_raise_nonfatal (table : DecodeTable) (st : ParserState)
    (pkt : Packet) (d : List Nat → Except Unit Body) (e : Unit)
    (hdec : table pkt.ptype = some d)
    (herr : d pkt.data = Except.error e)
    (hmiss : cacheLookup st.cache (pyhash pkt.original_data) = none) :
    (parse table st pkt).1.parsed = pkt.parsed ∧
    (parse table st pkt).1.ptype = pkt.ptype ∧
    (parse table st pkt).1.original_data = pkt.original_data ∧
    (parse table st pkt).2.1.cache = st.cache ∧
    (parse table st pkt).2.2 = [Effect.printError] ∧
    (∀ m, Effect.logWarning m ∉ (parse table st pkt).2.2) := by
  by_cases hsize : st.minCacheSize ≤ pkt.size
  · have h1 := parse_miss_err table st pkt d e hsize hmiss hdec herr
    rw [h1]
    simp
  · have h1 := parse_small_err table st pkt d e (not_le.mp hsize) hdec herr
    rw [h1]
    simp

/-- C9 witness: pkt0 through tblBad, whose type 17 decoder raises. -/
theorem C9_decoder_raise_nonfatal_witness :
    (tblBad pkt0.ptype = some dBad ∧
      dBad pkt0.data = Except.error () ∧
      cacheLookup ps0.cache (pyhash pkt0.original_data) = none) ∧
    ((parse tblBad ps0 pkt0).1.parsed = pkt0.parsed ∧
      (parse tblBad ps0 pkt0).1.ptype = pkt0.ptype ∧
      (parse tblBad ps0 pkt0).1.original_data = pkt0.original_data ∧
      (parse tblBad ps0 pkt0).2.1.cache = ps0.cache ∧
      (parse tblBad ps0 pkt0).2.2 = [Effect.printError] ∧
      (∀ m, Effect.logWarning m ∉ (parse tblBad ps0 pkt0).2.2)) :=
  ⟨⟨rfl, rfl, rfl⟩, C9_decoder_raise_nonfatal tblBad ps0 pkt0 dBad () rfl rfl rfl⟩

/-- C9 counterexample: for pkt0 under the raising decoder the returned frame
carries no decoded body at all (parsed is none, not an empty body), and the
only effect is a stdout print; no warning-level log entry is produced, so
the claim fails at this input. -/
theorem C9_counterexample :
    (parse tblBad ps0 pkt0).1.parsed = none ∧
    (parse tblBad ps0 pkt0).2.2 = [Effect.printError] := by
  constructor <;> rfl

/- ===== Override bookkeeping (PluginManager.get_overrides) ===== -/

/- Modelled from the spec: utilities.detect_overrides is not among the core
source files; per the spec a plugin overrides a fixed set of hook names and
detect_overrides recovers exactly that set by reflection, so a plugin
descriptor here carries its overridden hook names directly. -/
structure PluginD where
  name : String
  overriddenHooks : List String
deriving Repr, DecidableEq

/- The union of the overridden hooks of the given plugins, as accumulated by
the for loop in get_overrides. -/
def unionOverrides (ps : List PluginD) : List String :=
  ps.foldl (fun acc p => acc ++ p.overriddenHooks) []

/- Override-related state of a PluginManager: the _activated_plugins set (in
activation order), the cached _overrides set, and whether _override_cache
is the very same object as _activated_plugins. The source compares the two
with "is": __init__ assigns two distinct empty sets (so the flag starts
false) and get_overrides later assigns the alias (setting it true); an
in-place set.add never changes object identity, so activation leaves the
flag untouched. -/
structure OvState where
  activated : List PluginD
  overrides : List String
  cacheAliased : Bool
deriving Repr, DecidableEq

def ovInit : OvState :=
  { activated := [], overrides := [], cacheAliased := false }

/- PluginManager.get_overrides: if _override_cache is _activated_plugins,
return the cached _overrides; otherwise recompute the union over the
activated plugins, store it, and alias _override_cache to
_activated_plugins. -/
def getOverrides (s : OvState) : List String × OvState :=
  if s.cacheAliased then (s.overrides, s)
  else
    (unionOverrides s.activated,
     { s with overrides := unionOverrides s.activated, cacheAliased := true })

/- Activating one more plugin: activate_all adds each plugin to the
_activated_plugins set in place, which changes neither the object identity
inspected by the "is" comparison nor the cached _overrides. -/
def activatePlugin (s : OvState) (p : PluginD) : OvState :=
  { s with activated := s.activated ++ [p] }

def chatManagerD : PluginD :=
  { name := "chat_manager", overriddenHooks := ["on_chat_sent"] }

/-- C6: evaluation of get_overrides at the failing input: query once on the
freshly constructed manager, then activate chat_manager (which overrides
on_chat_sent), then query again. The second query returns the stale empty
set, which misses on_chat_sent even though the union of the activated
plugins' overridden hooks contains it: the overridden-hook set is not
recomputed when the activated set changes, because after the first query
the identity-based staleness check always passes. -/
theorem C6_stale_override_cache :
    (getOverrides (activatePlugin (getOverrides ovInit).2 chatManagerD)).1 = [] ∧
    "on_chat_sent" ∉ (getOverrides (activatePlugin (getOverrides ovInit).2 chatManagerD)).1 ∧
    "on_chat_sent" ∈ unionOverrides (activatePlugin (getOverrides ovInit).2 chatManagerD).activated := by
  refine ⟨rfl, ?_, ?_⟩ <;> decide

/- ===== Connection teardown (server.py Client.die) ===== -/

/- Observable state of one Client and its factory registry: the _alive flag,
the DISCONNECTED state flag, ghost counters for close() calls on the two
writer sockets and for factory.remove calls, ghost counters for cancel()
calls on the two loop tasks (die performs none; the server listener
cancels the client loop in its own finally block, outside die), and the
factory's connections list, from which remove deletes this connection
(connections held by id). -/
structure ClientState where
  alive : Bool
  disconnected : Bool
  writerCloses : Nat
  clientWriterCloses : Nat
  removeCalls : Nat
  serverLoopCancels : Nat
  clientLoopCancels : Nat
  registry : List Nat
  selfId : Nat
deriving Repr, DecidableEq

/- Client.die: guarded by _alive; when alive it sets the state to
DISCONNECTED, clears _alive, closes both writers, and has the factory
remove the connection from its connections list; when not alive it does
nothing. It cancels no tasks. -/
def die (c : ClientState) : ClientState :=
  if c.alive then
    { c with
      alive := false,
      disconnected := true,
      writerCloses := c.writerCloses + 1,
      clientWriterCloses := c.clientWriterCloses + 1,
      removeCalls := c.removeCalls + 1,
      registry := c.registry.erase c.selfId }
  else c

def client0 : ClientState :=
  { alive := true, disconnected := false, writerCloses := 0,
    clientWriterCloses := 0, removeCalls := 0, serverLoopCancels := 0,
    clientLoopCancels := 0, registry := [7, 9], selfId := 7 }

theorem die_of_not_alive (c : ClientState) (h : c.alive = false) : die c = c := by
  simp [die, h]

theorem die_alive_false (c : ClientState) : (die c).alive = false := by
  cases hc : c.alive <;> simp [die, hc]

theorem die_iterate_dead (m : Nat) (c : ClientState) (h : c.alive = false) :
    die^[m] c = c := by
  induction m with
  | zero => rfl
  | succ k ih => rw [Function.iterate_succ_apply', ih, die_of_not_alive _ h]

/-- C8 (amended): die is idempotent via the _alive guard: invoked any
positive number of times (die has no suspension point, so even triggers
from both forwarding loops run it atomically one after the other), it
closes each of the two sockets exactly once and removes the connection
from the factory registry exactly once; die itself cancels neither loop
task - the client loop is cancelled by the server listener's cleanup
outside die, and nothing cancels the server loop. -/
theorem C8_die_idempotent (c : ClientState) (n : Nat)
    (halive : c.alive = true) (hn : 1 ≤ n)
    (hw : c.writerCloses = 0) (hcw : c.clientWriterCloses = 0)
    (hr : c.removeCalls = 0) :
    (die^[n] c).writerCloses = 1 ∧
    (die^[n] c).clientWriterCloses = 1 ∧
    (die^[n] c).removeCalls = 1 ∧
    (die^[n] c).registry = c.registry.erase c.selfId ∧
    (die^[n] c).alive = false ∧
    (die^[n] c).serverLoopCancels = c.serverLoopCancels ∧
    (die^[n] c).clientLoopCancels = c.clientLoopCancels := by
  obtain ⟨m, rfl⟩ : ∃ m, n = m + 1 := ⟨n - 1, by omega⟩
  rw [Function.iterate_succ_apply]
  have hdead : (die c).alive = false := die_alive_false c
  rw [die_iterate_dead m (die c) hdead]
  simp [die, halive, hw, hcw, hr]

/-- C8 witness: two invocations of die on a live connection in a two-element
registry: one close per socket, one registry removal, no cancellation. -/
theorem C8_die_idempotent_witness :
    (client0.alive = true ∧ 1 ≤ 2 ∧ client0.writerCloses = 0 ∧
      client0.clientWriterCloses = 0 ∧ client0.removeCalls = 0) ∧
    ((die^[2] client0).writerCloses = 1 ∧
      (die^[2] client0).clientWriterCloses = 1 ∧
      (die^[2] client0).removeCalls = 1 ∧
      (die^[2] client0).registry = client0.registry.erase client0.selfId ∧
      (die^[2] client0).alive = false ∧
      (die^[2] client0).serverLoopCancels = client0.serverLoopCancels ∧
      (die^[2] client0).clientLoopCancels = client0.clientLoopCancels) :=
  ⟨⟨rfl, by decide, rfl, rfl, rfl⟩,
    C8_die_idempotent client0 2 rfl (by decide) rfl rfl rfl⟩

/-- C8 counterexample: invoking die twice on a live connection leaves both
loop-task cancel counters at zero, refuting the part of the claim that says
teardown via die cancels both loop tasks; the two socket closes and the
registry removal do each happen exactly once. -/
theorem C8_counterexample :
    (die (die client0)).serverLoopCancels = 0 ∧
    (die (die client0)).clientLoopCancels = 0 ∧
    (die (die client0)).writerCloses = 1 ∧
    (die (die client0)).clientWriterCloses = 1 ∧
    (die (die client0)).removeCalls = 1 := by
  refine ⟨?_, ?_, ?_, ?_, ?_⟩ <;> rfl

/- ===== Dependency resolver (PluginManager.resolve_dependencies) ===== -/

/- The resolver input: deps = {x.name: set(x.depends)}, a dict from plugin
name to declared dependency names; dict keys are unique and iterate in
insertion order, so the model is a name-keyed association list (theorems
assume Nodup keys, as the dict guarantees). -/

def gnames (g : List (String × List String)) : List String := g.map Prod.fst

/- The ready list of one while-loop iteration: names whose pending
dependency set is empty, in dict order. -/
def readyNames (deps : List (String × List String)) : List String :=
  (deps.filter (fun p => p.2.isEmpty)).map Prod.fst

/- The deps dict after one iteration: the ready names are deleted
(del deps[name]) and every remaining pending set has the names of all
instantiated plugins removed (deps[name].difference(set(self._plugins))),
where inst2 is the full registry after this iteration. -/
def stepDeps (deps : List (String × List String)) (inst2 : List String) :
    List (String × List String) :=
  (deps.filter (fun p => decide (p.1 ∉ readyNames deps))).map
    (fun p => (p.1, p.2.filter (fun d => decide (d ∉ inst2))))

theorem length_filter_lt_of_mem (l : List (String × List String))
    (p : (String × List String) → Bool) (a : String × List String)
    (ha : a ∈ l) (hpa : p a = false) : (l.filter p).length < l.length := by
  induction l with
  | nil => cases ha
  | cons x xs ih =>
    rcases List.mem_cons.mp ha with h | h
    · subst h
      rw [List.filter_cons, hpa]
      simpa using Nat.lt_succ_of_le (List.length_filter_le p xs)
    · rw [List.filter_cons]
      cases hx : p x
      · simpa using Nat.lt_succ_of_le (Nat.le_of_lt (ih h))
      · simpa [Nat.succ_lt_succ_iff] using ih h

theorem stepDeps_length_lt (deps : List (String × List String))
    (inst2 : List String) (hr : readyNames deps ≠ []) :
    (stepDeps deps inst2).length < deps.length := by
  unfold stepDeps
  rw [List.length_map]
  obtain ⟨n, hn⟩ := List.exists_mem_of_ne_nil _ hr
  obtain ⟨p, hp, hpn⟩ := List.mem_map.mp hn
  have hmem := List.mem_of_mem_filter hp
  apply length_filter_lt_of_mem _ _ p hmem
  have hpr : p.1 ∈ readyNames deps := by
    rw [hpn]; exact hn
  simp [hpr]

/- PluginManager.resolve_dependencies, one while-loop iteration per call:
terminate with the registry when deps is empty; otherwise compute the ready
plugins, instantiate them (append to the registry), update the pending
sets, and raise ImportError when nothing was ready, carrying the remaining
deps and the registry as it stands at the raise. -/
def resolveAux (deps : List (String × List String)) (inst : List String) :
    Except (List (String × List String) × List String) (List String) :=
  if deps = [] then Except.ok inst
  else if hr : readyNames deps = [] then
    Except.error (stepDeps deps inst, inst)
  else
    resolveAux (stepDeps deps (inst ++ readyNames deps)) (inst ++ readyNames deps)
termination_by deps.length
decreasing_by exact stepDeps_length_lt deps _ hr

def resolve_dependencies (g : List (String × List String)) :
    Except (List (String × List String) × List String) (List String) :=
  resolveAux g []

/- a occurs strictly before b in the list l. -/
def before (l : List String) (a b : String) : Prop :=
  a ∈ l ∧ b ∈ l ∧ l.indexOf a < l.indexOf b

/- b is a declared dependency of a in the graph g. -/
def depEdge (g : List (String × List String)) (a b : String) : Prop :=
  ∃ ds, (a, ds) ∈ g ∧ b ∈ ds

/- The dependency graph contains a cycle: a nonempty dependency path from
some name back to itself. -/
def hasCycle (g : List (String × List String)) : Prop :=
  ∃ n, Relation.TransGen (depEdge g) n n

/- Some declared dependency is not itself a known plugin name. -/
def hasUndeclared (g : List (String × List String)) : Prop :=
  ∃ n ds d, (n, ds) ∈ g ∧ d ∈ ds ∧ d ∉ gnames g

/- ===== Resolver invariant machinery ===== -/

theorem before_append_right (l r : List String) (a b : String) (h : before l a b) :
    before (l ++ r) a b :=
  ⟨List.mem_append_left r h.1, List.mem_append_left r h.2.1, by
    rw [List.indexOf_append_of_mem h.1, List.indexOf_append_of_mem h.2.1]
    exact h.2.2⟩

theorem before_mem_append (l r : List String) (a b : String)
    (ha : a ∈ l) (hb : b ∈ r) (hbl : b ∉ l) : before (l ++ r) a b := by
  refine ⟨List.mem_append_left r ha, List.mem_append_right l hb, ?_⟩
  rw [List.indexOf_append_of_mem ha, List.indexOf_append_of_not_mem hbl]
  have h1 : l.indexOf a < l.length := List.indexOf_lt_length.mpr ha
  omega

theorem before_trans {l : List String} {a b c : String}
    (h1 : before l a b) (h2 : before l b c) : before l a c :=
  ⟨h1.1, h2.2.1, lt_trans h1.2.2 h2.2.2⟩

theorem before_irrefl (l : List String) (a : String) : ¬ before l a a :=
  fun h => lt_irrefl _ h.2.2

theorem assoc_unique (n : String) (a b : List String) :
    ∀ (g : List (String × List String)), (gnames g).Nodup →
      (n, a) ∈ g → (n, b) ∈ g → a = b := by
  intro g
  induction g with
  | nil => intro _ ha _; cases ha
  | cons p rest ih =>
    intro hnd ha hb
    have hnd' : p.1 ∉ List.map Prod.fst rest ∧ (List.map Prod.fst rest).Nodup := by
      simpa [gnames] using hnd
    rcases List.mem_cons.mp ha with h1 | h1 <;> rcases List.mem_cons.mp hb with h2 | h2
    · have h3 : (n, a) = (n, b) := h1.trans h2.symm
      exact ((Prod.mk.injEq n a n b).mp h3).2
    · exfalso
      apply hnd'.1
      have hmem : n ∈ List.map Prod.fst rest := List.mem_map_of_mem Prod.fst h2
      rw [← h1]
      exact hmem
    · exfalso
      apply hnd'.1
      have hmem : n ∈ List.map Prod.fst rest := List.mem_map_of_mem Prod.fst h1
      rw [← h2]
      exact hmem
    · exact ih hnd'.2 h1 h2

theorem map_fst_filter_key (l : List (String × List String)) (q : String → Bool) :
    (l.filter (fun p => q p.1)).map Prod.fst = (l.map Prod.fst).filter q := by
  induction l with
  | nil => rfl
  | cons p rest ih => cases hq : q p.1 <;> simp [List.filter_cons, hq, ih]

/- The invariant tying one while-loop state (deps, inst) back to the original
graph g: the pending keys are exactly the not-yet-instantiated names (in
order), each pending set is the original one minus the instantiated names,
the registry holds known names without duplicates, and every instantiated
plugin sits after all of its declared dependencies. -/
structure ResolveInv (g deps : List (String × List String)) (inst : List String) : Prop where
  keys : deps.map Prod.fst = (gnames g).filter (fun n => decide (n ∉ inst))
  pend : ∀ n ds, (n, ds) ∈ deps →
    ∃ ds0, (n, ds0) ∈ g ∧ ds = ds0.filter (fun d => decide (d ∉ inst))
  sub : ∀ n ∈ inst, n ∈ gnames g
  nod : inst.Nodup
  ord : ∀ n ds0 d, (n, ds0) ∈ g → d ∈ ds0 → n ∈ inst → before inst d n

theorem ResolveInv_init (g : List (String × List String)) : ResolveInv g g [] := by
  refine ⟨?_, ?_, ?_, ?_, ?_⟩
  · simp [gnames]
  · intro n ds h
    exact ⟨ds, h, by simp⟩
  · intro n h
    cases h
  · exact List.nodup_nil
  · intro n ds0 d _ _ h
    cases h

theorem ResolveInv_step (g : List (String × List String))
    (hnd : (gnames g).Nodup)
    (deps : List (String × List String)) (inst : List String)
    (hInv : ResolveInv g deps inst) (hr : readyNames deps ≠ []) :
    ResolveInv g (stepDeps deps (inst ++ readyNames deps))
      (inst ++ readyNames deps) := by
  obtain ⟨hkeys, hpend, hsub, hnodup, hord⟩ := hInv
  set R := readyNames deps with hR
  have hkeyNodup : (deps.map Prod.fst).Nodup := by
    rw [hkeys]
    exact hnd.filter _
  have hRsub : ∀ n ∈ R, n ∈ deps.map Prod.fst := by
    intro n hn
    obtain ⟨p, hp, hpn⟩ := List.mem_map.mp hn
    have hmem : p.1 ∈ deps.map Prod.fst :=
      List.mem_map_of_mem Prod.fst (List.mem_of_mem_filter hp)
    rw [← hpn]
    exact hmem
  have hRready : ∀ n ∈ R, ∃ ds0, (n, ds0) ∈ g ∧
      ds0.filter (fun d => decide (d ∉ inst)) = [] := by
    intro n hn
    obtain ⟨p, hp, hpn⟩ := List.mem_map.mp hn
    have hpdeps := List.mem_of_mem_filter hp
    have hpempty : p.2 = [] := List.isEmpty_iff.mp ((List.mem_filter.mp hp).2)
    obtain ⟨ds0, hg, hfil⟩ := hpend p.1 p.2 hpdeps
    refine ⟨ds0, ?_, hfil.symm.trans hpempty⟩
    rw [← hpn]
    exact hg
  have hRinst : ∀ n ∈ R, n ∉ inst := by
    intro n hn
    have hmem : n ∈ (gnames g).filter (fun m => decide (m ∉ inst)) := by
      rw [← hkeys]
      exact hRsub n hn
    have := (List.mem_filter.mp hmem).2
    simpa using this
  have hRnodup : R.Nodup := by
    have hsubl : List.Sublist R (deps.map Prod.fst) := by
      rw [hR]
      unfold readyNames
      exact (List.filter_sublist deps).map Prod.fst
    exact hsubl.nodup hkeyNodup
  have hinstR : List.Disjoint inst R :=
    List.disjoint_left.mpr (fun a ha hb => hRinst a hb ha)
  refine ⟨?_, ?_, ?_, ?_, ?_⟩
  · -- keys
    unfold stepDeps
    rw [← hR]
    have hmapfst : ((deps.filter (fun p => decide (p.1 ∉ R))).map
        (fun p : String × List String =>
          (p.1, p.2.filter (fun d => decide (d ∉ inst ++ R))))).map Prod.fst
        = (deps.filter (fun p => decide (p.1 ∉ R))).map Prod.fst := by
      rw [List.map_map]
      rfl
    rw [hmapfst, map_fst_filter_key deps (fun n => decide (n ∉ R)), hkeys,
      List.filter_filter]
    apply List.filter_congr
    intro n _
    by_cases h1 : n ∈ inst <;> by_cases h2 : n ∈ R <;>
      simp [h1, h2, List.mem_append]
  · -- pend
    intro n ds hmem
    unfold stepDeps at hmem
    rw [← hR] at hmem
    obtain ⟨p, hp, hpe⟩ := List.mem_map.mp hmem
    have hpdeps := List.mem_of_mem_filter hp
    obtain ⟨ds0, hg, hfil⟩ := hpend p.1 p.2 hpdeps
    injection hpe with h1 h2
    refine ⟨ds0, ?_, ?_⟩
    · rw [← h1]
      exact hg
    · rw [← h2, hfil, List.filter_filter]
      apply List.filter_congr
      intro d _
      by_cases hd1 : d ∈ inst <;> by_cases hd2 : d ∈ R <;>
        simp [hd1, hd2, List.mem_append]
  · -- sub
    intro n hn
    rcases List.mem_append.mp hn with h | h
    · exact hsub n h
    · obtain ⟨ds0, hg, _⟩ := hRready n h
      exact List.mem_map_of_mem Prod.fst hg
  · -- nodup
    exact hnodup.append hRnodup hinstR
  · -- ord
    intro n ds0 d hg hd0 hn
    rcases List.mem_append.mp hn with hni | hnR
    · exact before_append_right inst R d n (hord n ds0 d hg hd0 hni)
    · obtain ⟨ds0', hg', hfil'⟩ := hRready n hnR
      have hds : ds0' = ds0 := assoc_unique n ds0' ds0 g hnd hg' hg
      rw [hds] at hfil'
      have hdinst : d ∈ inst := by
        by_contra hdn
        have hmem : d ∈ ds0.filter (fun x => decide (x ∉ inst)) :=
          List.mem_filter.mpr ⟨hd0, by simp [hdn]⟩
        rw [hfil'] at hmem
        cases hmem
      exact before_mem_append inst R d n hdinst hnR (hRinst n hnR)

theorem resolveAux_ok_inv (g : List (String × List String))
    (hnd : (gnames g).Nodup) :
    ∀ (k : Nat) (deps : List (String × List String)) (inst order : List String),
      deps.length ≤ k → ResolveInv g deps inst →
      resolveAux deps inst = Except.ok order → ResolveInv g [] order := by
  intro k
  induction k with
  | zero =>
    intro deps inst order hlen hInv hok
    have hdeps : deps = [] := List.length_eq_zero.mp (Nat.le_zero.mp hlen)
    subst hdeps
    rw [resolveAux] at hok
    simp at hok
    rw [← hok]
    exact hInv
  | succ k ih =>
    intro deps inst order hlen hInv hok
    by_cases hd : deps = []
    · subst hd
      rw [resolveAux] at hok
      simp at hok
      rw [← hok]
      exact hInv
    · rw [resolveAux, if_neg hd] at hok
      by_cases hr : readyNames deps = []
      · rw [dif_pos hr] at hok
        cases hok
      · rw [dif_neg hr] at hok
        have hstep := ResolveInv_step g hnd deps inst hInv hr
        have hlen2 : (stepDeps deps (inst ++ readyNames deps)).length ≤ k := by
          have := stepDeps_length_lt deps (inst ++ readyNames deps) hr
          omega
        exact ih _ _ order hlen2 hstep hok

theorem resolve_ok_sound (g : List (String × List String))
    (hnd : (gnames g).Nodup) (order : List String)
    (hok : resolve_dependencies g = Except.ok order) :
    (∀ n ds d, (n, ds) ∈ g → d ∈ ds → before order d n) ∧
    (∀ n, n ∈ gnames g ↔ n ∈ order) ∧ order.Nodup := by
  have hfin : ResolveInv g [] order :=
    resolveAux_ok_inv g hnd g.length g [] order le_rfl (ResolveInv_init g) hok
  have hall : ∀ m ∈ gnames g, m ∈ order := by
    intro m hm
    by_contra hmo
    have hmem : m ∈ (gnames g).filter (fun x => decide (x ∉ order)) :=
      List.mem_filter.mpr ⟨hm, by simp [hmo]⟩
    rw [← hfin.keys] at hmem
    simp at hmem
  refine ⟨?_, ?_, hfin.nod⟩
  · intro n ds d hg hd
    have hn : n ∈ gnames g := List.mem_map_of_mem Prod.fst hg
    exact hfin.ord n ds d hg hd (hall n hn)
  · intro n
    exact ⟨hall n, hfin.sub n⟩

theorem cycle_of_stuck (g : List (String × List String)) (K : List String)
    (hKne : K ≠ []) (hout : ∀ n ∈ K, ∃ d, d ∈ K ∧ depEdge g n d) :
    hasCycle g := by
  classical
  obtain ⟨n0, hn0⟩ := List.exists_mem_of_ne_nil K hKne
  have hchoice : ∀ n : String, ∃ d : String, n ∈ K → d ∈ K ∧ depEdge g n d := by
    intro n
    by_cases hn : n ∈ K
    · obtain ⟨d, hd, he⟩ := hout n hn
      exact ⟨d, fun _ => ⟨hd, he⟩⟩
    · exact ⟨n0, fun h => absurd h hn⟩
  choose f hf using hchoice
  have hseqK : ∀ k : Nat, f^[k] n0 ∈ K := by
    intro k
    induction k with
    | zero => simpa using hn0
    | succ j ih =>
      rw [Function.iterate_succ_apply']
      exact (hf _ ih).1
  have hedge : ∀ k : Nat, depEdge g (f^[k] n0) (f^[k + 1] n0) := by
    intro k
    rw [Function.iterate_succ_apply']
    exact (hf _ (hseqK k)).2
  have htrans : ∀ i j : Nat, i < j →
      Relation.TransGen (depEdge g) (f^[i] n0) (f^[j] n0) := by
    intro i j
    induction j with
    | zero =>
      intro h
      exact absurd h (Nat.not_lt_zero i)
    | succ m ihm =>
      intro hij
      rcases Nat.lt_succ_iff_lt_or_eq.mp hij with h | h
      · exact Relation.TransGen.tail (ihm h) (hedge m)
      · subst h
        exact Relation.TransGen.single (hedge i)
  have hlt : ∀ k : Nat, K.indexOf (f^[k] n0) < K.length :=
    fun k => List.indexOf_lt_length.mpr (hseqK k)
  obtain ⟨a, b, hab, hFab⟩ := Fintype.exists_ne_map_eq_of_card_lt
    (fun i : Fin (K.length + 1) =>
      (⟨K.indexOf (f^[i.1] n0), hlt i.1⟩ : Fin K.length))
    (by simp)
  have hidx : K.indexOf (f^[a.1] n0) = K.indexOf (f^[b.1] n0) :=
    congrArg Fin.val hFab
  have hseqab : f^[a.1] n0 = f^[b.1] n0 :=
    (List.indexOf_inj (hseqK a.1) (hseqK b.1)).mp hidx
  rcases Nat.lt_trichotomy a.1 b.1 with h | h | h
  · have ht := htrans a.1 b.1 h
    rw [← hseqab] at ht
    exact ⟨_, ht⟩
  · exact absurd (Fin.ext h) hab
  · have ht := htrans b.1 a.1 h
    rw [hseqab] at ht
    exact ⟨_, ht⟩

theorem stuck_cycle_or_undeclared (g : List (String × List String))
    (hnd : (gnames g).Nodup) (deps : List (String × List String))
    (inst : List String) (hInv : ResolveInv g deps inst)
    (hd : deps ≠ []) (hr : readyNames deps = []) :
    hasCycle g ∨ hasUndeclared g := by
  classical
  have hne : ∀ p ∈ deps, p.2 ≠ [] := by
    intro p hp hcon
    have hpr : p.1 ∈ readyNames deps := by
      unfold readyNames
      exact List.mem_map_of_mem Prod.fst
        (List.mem_filter.mpr ⟨hp, by simp [hcon]⟩)
    rw [hr] at hpr
    cases hpr
  by_cases hund : ∃ n ds d, (n, ds) ∈ deps ∧ d ∈ ds ∧ d ∉ gnames g
  · right
    obtain ⟨n, ds, d, hmem, hdm, hnotg⟩ := hund
    obtain ⟨ds0, hg, hfil⟩ := hInv.pend n ds hmem
    refine ⟨n, ds0, d, hg, ?_, hnotg⟩
    rw [hfil] at hdm
    exact List.mem_of_mem_filter hdm
  · left
    push_neg at hund
    apply cycle_of_stuck g (deps.map Prod.fst)
    · intro hmap
      exact hd (List.map_eq_nil_iff.mp hmap)
    · intro n hn
      obtain ⟨p, hp, hpn⟩ := List.mem_map.mp hn
      obtain ⟨ds0, hg, hfil⟩ := hInv.pend p.1 p.2 hp
      obtain ⟨d, hdm⟩ := List.exists_mem_of_ne_nil p.2 (hne p hp)
      have hdm2 : d ∈ ds0.filter (fun x => decide (x ∉ inst)) := by
        rw [← hfil]
        exact hdm
      have hd0 : d ∈ ds0 := List.mem_of_mem_filter hdm2
      have hdninst : d ∉ inst := by
        have := (List.mem_filter.mp hdm2).2
        simpa using this
      have hdg : d ∈ gnames g := hund p.1 p.2 d hp hdm
      have hdK : d ∈ deps.map Prod.fst := by
        rw [hInv.keys]
        exact List.mem_filter.mpr ⟨hdg, by simp [hdninst]⟩
      refine ⟨d, hdK, ?_⟩
      rw [← hpn]
      exact ⟨ds0, hg, hd0⟩

theorem resolveAux_err_sound_aux (g : List (String × List String))
    (hnd : (gnames g).Nodup) :
    ∀ (k : Nat) (deps : List (String × List String)) (inst : List String)
      (rem : List (String × List String)) (inst2 : List String),
      deps.length ≤ k → ResolveInv g deps inst →
      resolveAux deps inst = Except.error (rem, inst2) →
      (hasCycle g ∨ hasUndeclared g) ∧
      (∀ n ds0 d, (n, ds0) ∈ g → d ∈ ds0 → n ∈ inst2 → before inst2 d n) ∧
      (∀ n ∈ inst2, n ∈ gnames g) := by
  intro k
  induction k with
  | zero =>
    intro deps inst rem inst2 hlen hInv herr
    have hdeps : deps = [] := List.length_eq_zero.mp (Nat.le_zero.mp hlen)
    subst hdeps
    rw [resolveAux] at herr
    simp at herr
  | succ k ih =>
    intro deps inst rem inst2 hlen hInv herr
    by_cases hd : deps = []
    · subst hd
      rw [resolveAux] at herr
      simp at herr
    · rw [resolveAux, if_neg hd] at herr
      by_cases hr : readyNames deps = []
      · rw [dif_pos hr] at herr
        simp only [Except.error.injEq, Prod.mk.injEq] at herr
        obtain ⟨hrem, hinst⟩ := herr
        subst hinst
        exact ⟨stuck_cycle_or_undeclared g hnd deps inst hInv hd hr,
          fun n ds0 d hg hd0 hn => hInv.ord n ds0 d hg hd0 hn,
          hInv.sub⟩
      · rw [dif_neg hr] at herr
        have hstep := ResolveInv_step g hnd deps inst hInv hr
        have hlen2 : (stepDeps deps (inst ++ readyNames deps)).length ≤ k := by
          have := stepDeps_length_lt deps (inst ++ readyNames deps) hr
          omega
        exact ih _ _ rem inst2 hlen2 hstep herr

theorem resolve_err_sound (g : List (String × List String))
    (hnd : (gnames g).Nodup) (rem : List (String × List String))
    (inst2 : List String)
    (herr : resolve_dependencies g = Except.error (rem, inst2)) :
    (hasCycle g ∨ hasUndeclared g) ∧
    (∀ n ds0 d, (n, ds0) ∈ g → d ∈ ds0 → n ∈ inst2 → before inst2 d n) ∧
    (∀ n ∈ inst2, n ∈ gnames g) :=
  resolveAux_err_sound_aux g hnd g.length g [] rem inst2 le_rfl
    (ResolveInv_init g) herr

theorem resolve_fails_of_cycle_or_undeclared (g : List (String × List String))
    (hnd : (gnames g).Nodup) (h : hasCycle g ∨ hasUndeclared g) :
    ∃ e, resolve_dependencies g = Except.error e := by
  cases hres : resolve_dependencies g with
  | error e => exact ⟨e, rfl⟩
  | ok order =>
    exfalso
    obtain ⟨hord, hmem, hnodOrder⟩ := resolve_ok_sound g hnd order hres
    cases h with
    | inr hund =>
      obtain ⟨n, ds, d, hg, hdm, hnotg⟩ := hund
      have hbef : before order d n := hord n ds d hg hdm
      exact hnotg ((hmem d).mpr hbef.1)
    | inl hcyc =>
      obtain ⟨n, htg⟩ := hcyc
      have hmono : ∀ a b, Relation.TransGen (depEdge g) a b → before order b a := by
        intro a b htr
        induction htr with
        | single he =>
          obtain ⟨ds, hg, hb⟩ := he
          exact hord _ ds _ hg hb
        | tail htr he ihb =>
          obtain ⟨ds, hg, hb⟩ := he
          exact before_trans (hord _ ds _ hg hb) ihb
      exact before_irrefl order n (hmono n n htg)

/- ===== C4 and C7 ===== -/

def gABC : List (String × List String) := [("A", []), ("B", ["A"]), ("C", ["B"])]

def gCyc : List (String × List String) := [("A", ["B"]), ("B", ["A"])]

def gUndecl : List (String × List String) := [("A", ["Z"])]

def gPartial : List (String × List String) := [("A", []), ("B", ["Z"])]

/-- C4: resolve_dependencies produces an order in which every plugin is
instantiated after all plugins it depends on (for the input A:[], B:[A],
C:[B] the order is A, B, C), and it fails with a dependency error exactly
when an iteration makes no plugin ready while plugins remain - which
happens iff the dependency graph contains a cycle (as in A:[B], B:[A]) or
references an undeclared plugin name (as in A:[Z]). -/
theorem C4_resolver (g : List (String × List String))
    (hnd : (gnames g).Nodup) :
    (∀ order, resolve_dependencies g = Except.ok order →
      ∀ n ds d, (n, ds) ∈ g → d ∈ ds → before order d n) ∧
    ((∃ e, resolve_dependencies g = Except.error e) ↔
      (hasCycle g ∨ hasUndeclared g)) ∧
    resolve_dependencies gABC = Except.ok ["A", "B", "C"] ∧
    (∃ e, resolve_dependencies gCyc = Except.error e) ∧
    (∃ e, resolve_dependencies gUndecl = Except.error e) := by
  refine ⟨?_, ⟨?_, ?_⟩, ?_, ?_, ?_⟩
  · intro order hok n ds d hg hd
    exact (resolve_ok_sound g hnd order hok).1 n ds d hg hd
  · rintro ⟨e, he⟩
    obtain ⟨rem, inst2⟩ := e
    exact (resolve_err_sound g hnd rem inst2 he).1
  · exact resolve_fails_of_cycle_or_undeclared g hnd
  · simp [gABC, resolve_dependencies, resolveAux, readyNames, stepDeps]
  · exact ⟨([("A", ["B"]), ("B", ["A"])], []), by
      simp [gCyc, resolve_dependencies, resolveAux, readyNames, stepDeps]⟩
  · exact ⟨([("A", ["Z"])], []), by
      simp [gUndecl, resolve_dependencies, resolveAux, readyNames, stepDeps]⟩

/-- C4 witness: the theorem applied to the three-plugin chain A, B, C. -/
theorem C4_resolver_witness :
    (gnames gABC).Nodup ∧
    ((∀ order, resolve_dependencies gABC = Except.ok order →
      ∀ n ds d, (n, ds) ∈ gABC → d ∈ ds → before order d n) ∧
    ((∃ e, resolve_dependencies gABC = Except.error e) ↔
      (hasCycle gABC ∨ hasUndeclared gABC)) ∧
    resolve_dependencies gABC = Except.ok ["A", "B", "C"] ∧
    (∃ e, resolve_dependencies gCyc = Except.error e) ∧
    (∃ e, resolve_dependencies gUndecl = Except.error e)) :=
  ⟨by decide, C4_resolver gABC (by decide)⟩

/- ServerFactory.__init__ around resolution: resolve_dependencies runs, and
activate_all runs only if it did not raise (the surrounding try/except
aborts startup on the ImportError, so activation is skipped). The result is
the pair (instantiated registry, activated plugins). -/
def serverStartup (g : List (String × List String)) :
    List String × List String :=
  match resolve_dependencies g with
  | Except.ok order => (order, order)
  | Except.error e => (e.2, [])

/-- C7 counterexample: for the input A:[], B:[Z] (Z undeclared) resolution
fails, but plugin A was already instantiated in the first iteration: at the
moment the dependency error is raised the registry holds A and is not
empty, contradicting the claim that it is still empty. -/
theorem C7_counterexample :
    resolve_dependencies gPartial = Except.error ([("B", ["Z"])], ["A"]) ∧
    serverStartup gPartial = (["A"], []) ∧
    (["A"] : List String) ≠ [] := by
  have h : resolve_dependencies gPartial = Except.error ([("B", ["Z"])], ["A"]) := by
    simp [gPartial, resolve_dependencies, resolveAux, readyNames, stepDeps]
  refine ⟨h, ?_, by decide⟩
  unfold serverStartup
  rw [h]

/-- C7 (amended): if dependency resolution fails (because of a cycle or a
missing dependency), no plugin is activated, but the registry of
instantiated plugins is not necessarily empty: at the moment the dependency
error is raised it contains exactly the plugins resolved in the iterations
before the failing one, each instantiated after all of its declared
dependencies, and all of them declared plugin names. -/
theorem C7_no_activation_partial_registry (g : List (String × List String))
    (hnd : (gnames g).Nodup) (rem : List (String × List String))
    (inst2 : List String)
    (herr : resolve_dependencies g = Except.error (rem, inst2)) :
    serverStartup g = (inst2, []) ∧
    (∀ n ds0 d, (n, ds0) ∈ g → d ∈ ds0 → n ∈ inst2 → before inst2 d n) ∧
    (∀ n ∈ inst2, n ∈ gnames g) := by
  have h := resolve_err_sound g hnd rem inst2 herr
  refine ⟨?_, h.2.1, h.2.2⟩
  unfold serverStartup
  rw [herr]

/-- C7 witness: the failing input A:[], B:[Z]: nothing is activated and the
registry at the raise is exactly A. -/
theorem C7_no_activation_partial_registry_witness :
    ((gnames gPartial).Nodup ∧
      resolve_dependencies gPartial = Except.error ([("B", ["Z"])], ["A"])) ∧
    (serverStartup gPartial = (["A"], []) ∧
      (∀ n ds0 d, (n, ds0) ∈ gPartial → d ∈ ds0 → n ∈ ["A"] →
        before ["A"] d n) ∧
      (∀ n ∈ (["A"] : List String), n ∈ gnames gPartial)) := by
  have herr : resolve_dependencies gPartial = Except.error ([("B", ["Z"])], ["A"]) := by
    simp [gPartial, resolve_dependencies, resolveAux, readyNames, stepDeps]
  exact ⟨⟨by decide, herr⟩,
    C7_no_activation_partial_registry gPartial (by decide) _ _ herr⟩
